import Mathlib

/-! go-tags: a shallow embedding of `tags.go`

The Go package parses a struct-tag string such as `key1,key2,option1=value1`
into a `Tag` holding the bare keys (in order) and a map of lower-cased options.

Modelling conventions.

* A Go `string` is modelled as the sequence of its runes, `List Char`.  The two
  separators the parser searches for (`,` and `=`) are ASCII, so on UTF-8 text
  searching for the byte and searching for the rune coincide.
* A Go slice `[]string` is `Option (List Str)`: `none` is the nil slice, `some l`
  an allocated slice with elements `l`.
* A Go `map[string]string` is `Option (List (Str × Str))`: `none` is the nil
  map, `some es` an allocated map whose entries are `es` (one pair per name).
* A run-time panic (index out of range, assignment to an entry of a nil map)
  is the result `none` of a function returning `Option`.
* `strings.ToLower` maps `unicode.ToLower` over the runes.  The ASCII branch of
  `unicode.ToLower` is written out; the Unicode case table it consults for the
  other runes is a parameter `caseTable : Char → Char` of the development.
-/

namespace Tags

/-- A Go string, as the list of its runes. -/
abbrev Str := List Char

/-- A Go `[]string`; `none` is the nil slice. -/
abbrev Slice := Option (List Str)

/-- A Go `map[string]string`; `none` is the nil map. -/
abbrev GoMap := Option (List (Str × Str))

/-! ## The library functions used by the package -/

/-- Go `strings.Index(s, sep)` for a one-rune separator: the position of the
first occurrence of `sep` in `s`, `none` where Go returns `-1`. -/
def Index : Str → Char → Option Nat
  | [], _ => none
  | c :: cs, sep => if c = sep then some 0 else (Index cs sep).map (· + 1)

/-- Go `strings.Contains(s, sep)`, which is `Index(s, sep) >= 0`. -/
def Contains (s : Str) (sep : Char) : Bool :=
  (Index s sep).isSome

/-- Go `strings.Count(s, sep)` for a one-rune separator. -/
def Count (s : Str) (sep : Char) : Nat :=
  s.count sep

/-- The loop of Go `strings.genSplit`: `k` is the number of cuts still allowed
(`n - 1 - i` in the source); each round cuts at the first separator, and the
rest of the string is the last element. -/
def genSplitLoop (sep : Char) : Nat → Str → List Str
  | 0, s => [s]
  | k + 1, s =>
    match Index s sep with
    | none => [s]
    | some m => s.take m :: genSplitLoop sep k (s.drop (m + 1))

/-- Go `strings.genSplit(s, sep, 0, n)` for a one-rune separator: no element
for `n = 0`, all the pieces for `n < 0`, at most `n` pieces otherwise. -/
def genSplit (s : Str) (sep : Char) (n : Int) : List Str :=
  if n = 0 then []
  else
    let n1 : Nat := if n < 0 then Count s sep + 1 else n.toNat
    let n2 : Nat := if n1 > s.length + 1 then s.length + 1 else n1
    genSplitLoop sep (n2 - 1) s

/-- Go `strings.Split(s, sep)`. -/
def Split (s : Str) (sep : Char) : List Str :=
  genSplit s sep (-1)

/-- Go `strings.SplitN(s, sep, n)`. -/
def SplitN (s : Str) (sep : Char) (n : Int) : List Str :=
  genSplit s sep n

/-- Go `unicode.ToLower(r)`: the ASCII branch as in the library, the case table
for every other rune. -/
def unicodeToLower (caseTable : Char → Char) (r : Char) : Char :=
  if r.toNat ≤ 127 then
    if 65 ≤ r.toNat ∧ r.toNat ≤ 90 then Char.ofNat (r.toNat + 32) else r
  else caseTable r

/-- Go `strings.ToLower(s)`. -/
def ToLower (caseTable : Char → Char) (s : Str) : Str :=
  s.map (unicodeToLower caseTable)

/-- A case table that maps every rune outside ASCII to itself. -/
def asciiCaseTable : Char → Char :=
  fun r => r

/-- Go `unicode.IsUpper(r)`: the Latin-1 branch as in the library (the runes
of category Lu up to U+00FF are `A`..`Z`, U+00C0..U+00D6 and U+00D8..U+00DE);
for every other rune the range table `unicode.Upper` it consults is the
parameter `upperTable`. -/
def unicodeIsUpper (upperTable : Char → Bool) (r : Char) : Bool :=
  if r.toNat ≤ 255 then
    decide ((65 ≤ r.toNat ∧ r.toNat ≤ 90) ∨ (192 ≤ r.toNat ∧ r.toNat ≤ 214) ∨
      (216 ≤ r.toNat ∧ r.toNat ≤ 222))
  else upperTable r

/-- Two entries of the Unicode data, for the examples: U+2102 (double-struck
capital C) and U+1D400 (mathematical bold capital A) are of category Lu, so
`unicode.Upper` holds them, and neither has a lower-case mapping, so
`unicode.ToLower` returns them unchanged. -/
def upperSample (r : Char) : Bool :=
  r.toNat == 8450 || r.toNat == 119808

/-! ## Slices and maps -/

/-- The elements a `range` over the slice visits. -/
def Slice.elems : Slice → List Str
  | none => []
  | some l => l

/-- Go `len(s)` on a slice. -/
def Slice.len (s : Slice) : Nat :=
  s.elems.length

/-- Go `append(s, x)`: the result is allocated, also from a nil slice. -/
def Slice.append (s : Slice) (x : Str) : Slice :=
  some (s.elems ++ [x])

/-- The entries of a map; a nil map has none. -/
def GoMap.entries : GoMap → List (Str × Str)
  | none => []
  | some es => es

/-- Go `len(m)` on a map. -/
def GoMap.len (m : GoMap) : Nat :=
  m.entries.length

/-- Go `v, ok := m[k]`; `none` when the name is absent. -/
def GoMap.get (m : GoMap) (k : Str) : Option Str :=
  m.entries.lookup k

/-- Go `m[k] = v`: panics on a nil map, otherwise the entry for `k` is
replaced or added. -/
def GoMap.assign : GoMap → Str → Str → Option GoMap
  | none, _, _ => none
  | some es, k, v => some (some ((k, v) :: es.filter (fun e => e.1 != k)))

/-! ## The package -/

/-- The struct `Tag` of `tags.go`. -/
structure Tag where
  Keys : Slice
  Options : GoMap
deriving DecidableEq

/-- The method `HasKeys`. -/
def Tag.HasKeys (t : Tag) : Bool :=
  decide (t.Keys.len > 0)

/-- The method `HasOptions`. -/
def Tag.HasOptions (t : Tag) : Bool :=
  decide (t.Options.len > 0)

/-- The method `IsEmpty`. -/
def Tag.IsEmpty (t : Tag) : Bool :=
  !t.HasKeys && !t.HasOptions

/-- The loop of `HasKey`: returns at the first element equal to `key`. -/
def hasKeyLoop (key : Str) : List Str → Bool
  | [] => false
  | k :: ks => if k = key then true else hasKeyLoop key ks

/-- The method `HasKey`. -/
def Tag.HasKey (t : Tag) (key : Str) : Bool :=
  hasKeyLoop key t.Keys.elems

/-- One round of the loop of `ParseTagStr` on `token`; `none` is a panic. -/
def parseStep (caseTable : Char → Char) (t : Tag) (token : Str) : Option Tag :=
  if Contains token '=' then do
    let parts := SplitN token '=' 2
    let p0 ← parts[0]?
    let opt := ToLower caseTable p0
    let p1 ← parts[1]?
    let val := ToLower caseTable p1
    let m ← t.Options.assign opt val
    pure { t with Options := m }
  else if token ≠ [] then
    pure { t with Keys := t.Keys.append token }
  else
    pure t

/-- The function `ParseTagStr`; `none` is a panic. -/
def ParseTagStr (caseTable : Char → Char) (str : Str) : Option Tag :=
  (Split str ',').foldlM (parseStep caseTable) { Keys := some [], Options := some [] }

/-- Go `reflect.StructTag`: the tag string of a struct field. -/
abbrev StructTag := Str

/-- The part of Go `reflect.StructField` that the package reads. -/
structure StructField where
  Tag : StructTag

/-- Go `reflect.StructTag.Get(key)`, which is `v, _ := tag.Lookup(key); return v`.
The library function `Lookup`, which reads the conventional `name:"value"`
format, is the parameter `lookup`; it answers `none` where Go answers
`("", false)`, and `Get` then returns the empty string. -/
def StructTagGet (lookup : StructTag → Str → Option Str) (tag : StructTag) (key : Str) : Str :=
  match lookup tag key with
  | some v => v
  | none => []

/-- The function `ParseTag`; `none` is a panic. -/
def ParseTag (caseTable : Char → Char) (lookup : StructTag → Str → Option Str)
    (field : StructField) (tag : Str) : Option Tag :=
  ParseTagStr caseTable (StructTagGet lookup field.Tag tag)

/-- A lookup for the examples: the field registers exactly the annotations
listed in `entries`, whatever its tag string. -/
def listedLookup (entries : List (Str × Str)) : StructTag → Str → Option Str :=
  fun _ key => entries.lookup key

/-! ## Reference functions for stating the results

These follow the words of the specification, not the code: they are what the
results of the code are compared with. -/

/-- The part of a token before its first `=`. -/
def nameOf (token : Str) : Str :=
  token.takeWhile (fun c => c != '=')

/-- Everything of a token after its first `=`. -/
def valueOf (token : Str) : Str :=
  (token.dropWhile (fun c => c != '=')).drop 1

/-- The bare tokens: non-empty and without `=`. -/
def keysOf (tokens : List Str) : List Str :=
  tokens.filter (fun tok => decide (tok ≠ []) && !decide ('=' ∈ tok))

/-- The option entries after the tokens were read in order, starting from the
entries `es`: an option token replaces the entry of its lower-cased name. -/
def optionsFrom (caseTable : Char → Char) (es : List (Str × Str)) (tokens : List Str) :
    List (Str × Str) :=
  tokens.foldl
    (fun acc tok =>
      if '=' ∈ tok then
        (ToLower caseTable (nameOf tok), ToLower caseTable (valueOf tok)) ::
          acc.filter (fun e => e.1 != ToLower caseTable (nameOf tok))
      else acc)
    es

/-- The token an option `name=value` is written as. -/
def optionToken (e : Str × Str) : Str :=
  e.1 ++ '=' :: e.2

/-! ## Lemmas on the library functions -/

theorem Index_eq_none {s : Str} {sep : Char} : Index s sep = none ↔ sep ∉ s := by
  induction s with
  | nil => simp [Index]
  | cons c cs ih =>
    by_cases h : c = sep
    · simp [Index, h]
    · have h2 : ¬ sep = c := fun e => h e.symm
      simp [Index, h, h2, ih]

theorem Contains_iff {s : Str} {sep : Char} : Contains s sep = true ↔ sep ∈ s := by
  unfold Contains
  cases h : Index s sep with
  | none => simpa using Index_eq_none.mp h
  | some m =>
    have : ¬ sep ∉ s := fun hn => by rw [Index_eq_none.mpr hn] at h; cases h
    simpa using this

theorem Index_eq_some {s : Str} {sep : Char} {m : Nat} (h : Index s sep = some m) :
    s = s.take m ++ sep :: s.drop (m + 1) ∧ sep ∉ s.take m := by
  induction s generalizing m with
  | nil => simp [Index] at h
  | cons c cs ih =>
    by_cases hc : c = sep
    · simp [Index, hc] at h
      subst h
      simp [hc]
    · simp only [Index, hc, if_false, Option.map_eq_some'] at h
      obtain ⟨k, hk, rfl⟩ := h
      obtain ⟨h1, h2⟩ := ih hk
      have hc2 : ¬ sep = c := fun e => hc e.symm
      refine ⟨?_, ?_⟩
      · simp only [List.take_succ_cons, List.drop_succ_cons, List.cons_append]
        rw [← h1]
      · simp [List.take_succ_cons, hc2, h2]

theorem Index_take_eq_nameOf {s : Str} {m : Nat} (h : Index s '=' = some m) :
    s.take m = nameOf s ∧ s.drop (m + 1) = valueOf s := by
  induction s generalizing m with
  | nil => simp [Index] at h
  | cons c cs ih =>
    by_cases hc : c = '='
    · simp [Index, hc] at h
      subst h
      simp [hc, nameOf, valueOf, List.takeWhile, List.dropWhile]
    · simp only [Index, hc, if_false, Option.map_eq_some'] at h
      obtain ⟨k, hk, rfl⟩ := h
      obtain ⟨h1, h2⟩ := ih hk
      have hb : (c != '=') = true := by simp [hc]
      simp only [nameOf, valueOf] at h1 h2 ⊢
      rw [List.takeWhile_cons, List.dropWhile_cons]
      simp only [hb, if_true, List.take_succ_cons, List.drop_succ_cons, h1, h2, and_self]

theorem splitOn_of_not_mem {s : Str} {sep : Char} (h : sep ∉ s) : s.splitOn sep = [s] := by
  unfold List.splitOn
  apply List.splitOnP_eq_single
  intro x hx hp
  rw [eq_of_beq hp] at hx
  exact h hx

theorem splitOn_first {a b : Str} {sep : Char} (h : sep ∉ a) :
    (a ++ sep :: b).splitOn sep = a :: b.splitOn sep := by
  unfold List.splitOn
  apply List.splitOnP_first
  · intro x hx hp
    rw [eq_of_beq hp] at hx
    exact h hx
  · simp

theorem genSplitLoop_eq_splitOn (sep : Char) :
    ∀ (k : Nat) (s : Str), s.count sep ≤ k → genSplitLoop sep k s = s.splitOn sep := by
  intro k
  induction k with
  | zero =>
    intro s hs
    have h0 : sep ∉ s := by
      have : s.count sep = 0 := Nat.le_zero.mp hs
      exact List.count_eq_zero.mp this
    rw [splitOn_of_not_mem h0]
    rfl
  | succ k ih =>
    intro s hs
    unfold genSplitLoop
    cases hI : Index s sep with
    | none =>
      simp only
      rw [splitOn_of_not_mem (Index_eq_none.mp hI)]
    | some m =>
      simp only
      obtain ⟨h1, h2⟩ := Index_eq_some hI
      have hcount : (s.drop (m + 1)).count sep ≤ k := by
        have hc : s.count sep = (s.take m).count sep + ((s.drop (m + 1)).count sep + 1) := by
          conv_lhs => rw [h1]
          rw [List.count_append, List.count_cons_self]
        have hz : (s.take m).count sep = 0 := List.count_eq_zero.mpr h2
        omega
      rw [ih _ hcount]
      conv_rhs => rw [h1]
      rw [splitOn_first h2]

theorem Split_eq_splitOn (s : Str) (sep : Char) : Split s sep = s.splitOn sep := by
  have hle : s.count sep ≤ s.length := List.count_le_length sep s
  unfold Split genSplit Count
  have h1 : ¬ ((-1 : Int) = 0) := by decide
  have h2 : ((-1 : Int) < 0) := by decide
  have h3 : ¬ (s.count sep + 1 > s.length + 1) := by omega
  simp only [h1, h2, h3, if_true, if_false]
  exact genSplitLoop_eq_splitOn sep _ s (by omega)

theorem SplitN_two {token : Str} (h : '=' ∈ token) :
    SplitN token '=' 2 = [nameOf token, valueOf token] := by
  have hlen : 1 ≤ token.length := List.length_pos_of_mem h
  unfold SplitN genSplit
  have h1 : ¬ ((2 : Int) = 0) := by decide
  have h2 : ¬ ((2 : Int) < 0) := by decide
  have h3 : ¬ ((2 : Int).toNat > token.length + 1) := by
    have : (2 : Int).toNat = 2 := rfl
    omega
  simp only [h1, h2, h3, if_false]
  have h4 : (2 : Int).toNat - 1 = 0 + 1 := rfl
  rw [h4]
  unfold genSplitLoop
  cases hI : Index token '=' with
  | none => exact absurd h (Index_eq_none.mp hI)
  | some m =>
    obtain ⟨e1, e2⟩ := Index_take_eq_nameOf hI
    simp only [genSplitLoop, e1, e2]

/-! ## The loop of `ParseTagStr` in closed form -/

theorem parseStep_eq (caseTable : Char → Char) (ks : List Str) (es : List (Str × Str))
    (token : Str) :
    parseStep caseTable { Keys := some ks, Options := some es } token
      = some { Keys := some (ks ++ keysOf [token]),
               Options := some (optionsFrom caseTable es [token]) } := by
  by_cases h : '=' ∈ token
  · have hc : Contains token '=' = true := Contains_iff.mpr h
    simp [parseStep, hc, SplitN_two h, GoMap.assign, keysOf, optionsFrom, h]
  · have hc : Contains token '=' = false := by
      cases hb : Contains token '=' with
      | false => rfl
      | true => exact absurd (Contains_iff.mp hb) h
    by_cases he : token = []
    · subst he
      simp [parseStep, hc, keysOf, optionsFrom]
    · simp [parseStep, hc, keysOf, optionsFrom, h, he, Slice.append, Slice.elems]

theorem keysOf_cons (token : Str) (tokens : List Str) :
    keysOf (token :: tokens) = keysOf [token] ++ keysOf tokens := by
  unfold keysOf
  rw [← List.filter_append]
  rfl

theorem optionsFrom_cons (caseTable : Char → Char) (es : List (Str × Str)) (token : Str)
    (tokens : List Str) :
    optionsFrom caseTable es (token :: tokens)
      = optionsFrom caseTable (optionsFrom caseTable es [token]) tokens := by
  simp [optionsFrom]

theorem parseLoop_eq (caseTable : Char → Char) (tokens : List Str) :
    ∀ (ks : List Str) (es : List (Str × Str)),
      tokens.foldlM (parseStep caseTable) { Keys := some ks, Options := some es }
        = some { Keys := some (ks ++ keysOf tokens),
                 Options := some (optionsFrom caseTable es tokens) } := by
  induction tokens with
  | nil => intro ks es; simp [keysOf, optionsFrom]
  | cons token rest ih =>
    intro ks es
    rw [List.foldlM_cons, parseStep_eq]
    simp only [Option.bind_eq_bind, Option.some_bind]
    rw [ih, keysOf_cons token rest, optionsFrom_cons caseTable es token rest, List.append_assoc]

theorem ParseTagStr_eq (caseTable : Char → Char) (s : Str) :
    ParseTagStr caseTable s
      = some { Keys := some (keysOf (s.splitOn ',')),
               Options := some (optionsFrom caseTable [] (s.splitOn ',')) } := by
  unfold ParseTagStr
  rw [parseLoop_eq, Split_eq_splitOn]
  simp

theorem not_mem_of_mem_splitOn (sep : Char) :
    ∀ (s : Str), ∀ tok ∈ s.splitOn sep, sep ∉ tok := by
  intro s
  induction s with
  | nil => intro tok h; simp at h; simp [h]
  | cons c cs ih =>
    intro tok h
    unfold List.splitOn at h ih
    rw [List.splitOnP_cons] at h
    by_cases hc : c = sep
    · simp only [hc, beq_self_eq_true, if_true, List.mem_cons] at h
      rcases h with h | h
      · simp [h]
      · exact ih tok h
    · have hb : (c == sep) = false := by simp [hc]
      simp only [hb] at h
      cases hs : List.splitOnP (fun x => x == sep) cs with
      | nil => exact absurd hs (List.splitOnP_ne_nil _ _)
      | cons hd tl =>
        rw [hs] at h ih
        simp only [List.modifyHead_cons, List.mem_cons, Bool.false_eq_true, if_false] at h
        rcases h with h | h
        · subst h
          have := ih hd (List.mem_cons_self _ _)
          intro hm
          rcases List.mem_cons.mp hm with e | e
          · exact hc e.symm
          · exact this e
        · exact ih tok (List.mem_cons_of_mem _ h)

theorem lookup_filter_ne {n k : Str} (hnk : n ≠ k) (es : List (Str × Str)) :
    List.lookup n (es.filter (fun e => e.1 != k)) = List.lookup n es := by
  induction es with
  | nil => rfl
  | cons e rest ih =>
    obtain ⟨a, b⟩ := e
    by_cases hak : a = k
    · subst hak
      have hna : (n == a) = false := by simp [hnk]
      simp [List.filter_cons, List.lookup_cons, hna, ih]
    · by_cases hna : n = a
      · simp [List.filter_cons, hak, List.lookup_cons, hna]
      · have hna2 : (n == a) = false := by simp [hna]
        simp [List.filter_cons, hak, List.lookup_cons, hna2, ih]

theorem optionsFrom_snoc (caseTable : Char → Char) (es : List (Str × Str))
    (tokens : List Str) (token : Str) :
    optionsFrom caseTable es (tokens ++ [token])
      = optionsFrom caseTable (optionsFrom caseTable es tokens) [token] := by
  simp [optionsFrom, List.foldl_append]

theorem lookup_optionsFrom_single (caseTable : Char → Char) (es : List (Str × Str))
    (token n : Str) :
    List.lookup n (optionsFrom caseTable es [token])
      = if '=' ∈ token ∧ ToLower caseTable (nameOf token) = n
        then some (ToLower caseTable (valueOf token)) else List.lookup n es := by
  by_cases h : '=' ∈ token
  · by_cases hn : ToLower caseTable (nameOf token) = n
    · subst hn
      simp [optionsFrom, h, List.lookup_cons]
    · have hn2 : n ≠ ToLower caseTable (nameOf token) := fun e => hn e.symm
      have hb : (n == ToLower caseTable (nameOf token)) = false := by simp [hn2]
      simp only [optionsFrom, List.foldl_cons, List.foldl_nil, h, if_true, List.lookup_cons, hb,
        hn, and_false, if_false]
      exact lookup_filter_ne hn2 es
  · simp [optionsFrom, h]

theorem lookup_optionsFrom_last (caseTable : Char → Char) (n v : Str) :
    ∀ (tokens : List Str),
      List.lookup n (optionsFrom caseTable [] tokens) = some v ↔
        ∃ pre tok post, tokens = pre ++ tok :: post ∧ '=' ∈ tok ∧
          ToLower caseTable (nameOf tok) = n ∧
          (∀ t ∈ post, ¬ ('=' ∈ t ∧ ToLower caseTable (nameOf t) = n)) ∧
          v = ToLower caseTable (valueOf tok) := by
  intro tokens
  induction tokens using List.reverseRecOn with
  | nil => simp [optionsFrom]
  | append_singleton l t ih =>
    rw [optionsFrom_snoc, lookup_optionsFrom_single]
    by_cases ht : '=' ∈ t ∧ ToLower caseTable (nameOf t) = n
    · rw [if_pos ht]
      constructor
      · intro hv
        have hv2 : ToLower caseTable (valueOf t) = v := by simpa using hv
        exact ⟨l, t, [], by simp, ht.1, ht.2, by simp, hv2.symm⟩
      · rintro ⟨pre, tok, post, heq, -, -, hpost, hv⟩
        rcases List.eq_nil_or_concat post with hp | ⟨post2, b, hp⟩
        · subst hp
          have := List.append_inj' heq rfl
          have htok : t = tok := by simpa using this.2
          rw [hv, htok]
        · subst hp
          have heq2 : l ++ [t] = (pre ++ tok :: post2) ++ [b] := by simpa using heq
          have := List.append_inj' heq2 rfl
          have hb : t = b := by simpa using this.2
          exact absurd (hb ▸ ht) (hpost b (by simp))
    · rw [if_neg ht, ih]
      constructor
      · rintro ⟨pre, tok, post, heq, h1, h2, hpost, hv⟩
        refine ⟨pre, tok, post ++ [t], by simp [heq], h1, h2, ?_, hv⟩
        intro x hx
        rcases List.mem_append.mp hx with hx | hx
        · exact hpost x hx
        · have : x = t := by simpa using hx
          rw [this]; exact ht
      · rintro ⟨pre, tok, post, heq, h1, h2, hpost, hv⟩
        rcases List.eq_nil_or_concat post with hp | ⟨post2, b, hp⟩
        · subst hp
          have := List.append_inj' heq rfl
          have htok : t = tok := by simpa using this.2
          exact absurd (htok ▸ ⟨h1, h2⟩) ht
        · subst hp
          have heq2 : l ++ [t] = (pre ++ tok :: post2) ++ [b] := by simpa using heq
          have := List.append_inj' heq2 rfl
          refine ⟨pre, tok, post2, this.1, h1, h2, ?_, hv⟩
          intro x hx
          exact hpost x (by simp [hx])

theorem exists_last_of_exists (P : Str → Prop) [DecidablePred P] :
    ∀ (tokens : List Str), (∃ tok ∈ tokens, P tok) →
      ∃ pre tok post, tokens = pre ++ tok :: post ∧ P tok ∧ ∀ t ∈ post, ¬ P t := by
  intro tokens
  induction tokens with
  | nil => simp
  | cons a rest ih =>
    rintro ⟨tok, hmem, hP⟩
    by_cases hr : ∃ tok ∈ rest, P tok
    · obtain ⟨pre, tok2, post, heq, h2, hpost⟩ := ih hr
      exact ⟨a :: pre, tok2, post, by simp [heq], h2, hpost⟩
    · have ha : P a := by
        rcases List.mem_cons.mp hmem with e | e
        · exact e ▸ hP
        · exact absurd ⟨tok, e, hP⟩ hr
      refine ⟨[], a, rest, by simp, ha, ?_⟩
      intro t ht hPt
      exact hr ⟨t, ht, hPt⟩

/-! ## Rendered tags -/

theorem nameOf_append_eq {n : Str} (v : Str) (h : '=' ∉ n) :
    nameOf (n ++ '=' :: v) = n ∧ valueOf (n ++ '=' :: v) = v := by
  induction n with
  | nil => simp [nameOf, valueOf, List.takeWhile_cons, List.dropWhile_cons]
  | cons c cs ih =>
    have hc : c ≠ '=' := fun e => h (by simp [e])
    have hcs : '=' ∉ cs := fun e => h (by simp [e])
    have hb : (c != '=') = true := by simp [hc]
    obtain ⟨h1, h2⟩ := ih hcs
    simp only [nameOf, valueOf] at h1 h2 ⊢
    rw [List.cons_append, List.takeWhile_cons, List.dropWhile_cons]
    simp only [hb, if_true, h1, h2, and_self]

theorem mem_optionToken (e : Str × Str) : '=' ∈ optionToken e := by
  simp [optionToken]

theorem optionsFrom_append (caseTable : Char → Char) (es : List (Str × Str))
    (a b : List Str) :
    optionsFrom caseTable es (a ++ b) = optionsFrom caseTable (optionsFrom caseTable es a) b := by
  simp [optionsFrom, List.foldl_append]

theorem optionsFrom_of_keys (caseTable : Char → Char) (tokens : List Str)
    (h : ∀ t ∈ tokens, '=' ∉ t) :
    ∀ es : List (Str × Str), optionsFrom caseTable es tokens = es := by
  induction tokens with
  | nil => intro es; rfl
  | cons t rest ih =>
    intro es
    rw [optionsFrom_cons]
    have ht : '=' ∉ t := h t (List.mem_cons_self _ _)
    have h1 : optionsFrom caseTable es [t] = es := by simp [optionsFrom, ht]
    rw [h1]
    exact ih (fun x hx => h x (List.mem_cons_of_mem _ hx)) es

theorem filter_ne_of_not_mem {n : Str} (es : List (Str × Str))
    (h : n ∉ es.map Prod.fst) : es.filter (fun e => e.1 != n) = es := by
  apply List.filter_eq_self.mpr
  intro e he
  have : e.1 ≠ n := fun eq => h (by rw [← eq]; exact List.mem_map_of_mem _ he)
  simp [this]

theorem optionsFrom_rendered (caseTable : Char → Char) :
    ∀ (opts es : List (Str × Str)),
      (opts.map Prod.fst).Nodup →
      (∀ e ∈ opts, '=' ∉ e.1 ∧ ToLower caseTable e.1 = e.1 ∧ ToLower caseTable e.2 = e.2) →
      (∀ e ∈ opts, e.1 ∉ es.map Prod.fst) →
      optionsFrom caseTable es (opts.map optionToken) = opts.reverse ++ es := by
  intro opts
  induction opts with
  | nil => intro es _ _ _; rfl
  | cons e rest ih =>
    intro es hnd hwf hfresh
    obtain ⟨hne, hl1, hl2⟩ := hwf e (List.mem_cons_self _ _)
    obtain ⟨hn1, hn2⟩ := nameOf_append_eq e.2 hne
    have hfe : e.1 ∉ es.map Prod.fst := hfresh e (List.mem_cons_self _ _)
    rw [List.map_cons, optionsFrom_cons]
    have hstep : optionsFrom caseTable es [optionToken e] = e :: es := by
      have hm : '=' ∈ e.1 ++ '=' :: e.2 := by simp
      simp only [optionsFrom, optionToken, List.foldl_cons, List.foldl_nil, hm, if_true, hn1, hn2,
        hl1, hl2, filter_ne_of_not_mem es hfe]
    rw [hstep]
    have hnd' : e.1 ∉ rest.map Prod.fst ∧ (rest.map Prod.fst).Nodup := by
      rw [List.map_cons] at hnd
      exact List.nodup_cons.mp hnd
    have hnd2 : (rest.map Prod.fst).Nodup := hnd'.2
    have hnotin : e.1 ∉ rest.map Prod.fst := hnd'.1
    rw [ih (e :: es) hnd2 (fun x hx => hwf x (List.mem_cons_of_mem _ hx))]
    · simp
    · intro x hx hmem
      rw [List.map_cons] at hmem
      rcases List.mem_cons.mp hmem with h | h
      · exact hnotin (by rw [← h]; exact List.mem_map_of_mem _ hx)
      · exact hfresh x (List.mem_cons_of_mem _ hx) h

theorem keysOf_rendered (ks : List Str) (opts : List (Str × Str))
    (hks : ∀ k ∈ ks, k ≠ [] ∧ '=' ∉ k) :
    keysOf (ks ++ opts.map optionToken) = ks := by
  unfold keysOf
  rw [List.filter_append]
  have h1 : ks.filter (fun tok => decide (tok ≠ []) && !decide ('=' ∈ tok)) = ks := by
    apply List.filter_eq_self.mpr
    intro k hk
    obtain ⟨a, b⟩ := hks k hk
    simp [a, b]
  have h2 : (opts.map optionToken).filter
      (fun tok => decide (tok ≠ []) && !decide ('=' ∈ tok)) = [] := by
    apply List.filter_eq_nil_iff.mpr
    intro t ht
    obtain ⟨e, -, rfl⟩ := List.mem_map.mp ht
    simp [mem_optionToken e]
  rw [h1, h2, List.append_nil]

theorem lookup_iff_mem_of_nodup (n v : Str) :
    ∀ (es : List (Str × Str)), (es.map Prod.fst).Nodup →
      (List.lookup n es = some v ↔ (n, v) ∈ es) := by
  intro es
  induction es with
  | nil => intro _; simp
  | cons e rest ih =>
    intro hnd
    obtain ⟨a, b⟩ := e
    have hnd' : a ∉ rest.map Prod.fst ∧ (rest.map Prod.fst).Nodup := by
      rw [List.map_cons] at hnd
      exact List.nodup_cons.mp hnd
    by_cases hna : n = a
    · subst hna
      have hnot : ∀ w, (n, w) ∉ rest := fun w hw => hnd'.1 (List.mem_map_of_mem Prod.fst hw)
      simp only [List.lookup_cons, beq_self_eq_true, Option.some.injEq, List.mem_cons,
        Prod.mk.injEq, true_and]
      constructor
      · intro h; exact Or.inl h.symm
      · rintro (h | h)
        · exact h.symm
        · exact absurd h (hnot v)
    · have hb : (n == a) = false := by simp [hna]
      simp only [List.lookup_cons, hb, List.mem_cons, Prod.mk.injEq, hna, false_and, false_or]
      exact ih hnd'.2

theorem splitOn_rendered (tokens : List Str) (h : ∀ t ∈ tokens, ',' ∉ t) :
    keysOf (([','].intercalate tokens).splitOn ',') = keysOf tokens ∧
      ∀ (caseTable : Char → Char),
        optionsFrom caseTable [] (([','].intercalate tokens).splitOn ',')
          = optionsFrom caseTable [] tokens := by
  by_cases hnil : tokens = []
  · subst hnil
    refine ⟨by decide, fun caseTable => ?_⟩
    have : ([','].intercalate ([] : List Str)).splitOn ',' = [[]] := by decide
    rw [this]
    simp [optionsFrom]
  · rw [List.splitOn_intercalate tokens ',' h hnil]
    exact ⟨rfl, fun _ => rfl⟩

theorem ParseTagStr_intercalate (caseTable : Char → Char) (tokens : List Str)
    (h : ∀ t ∈ tokens, ',' ∉ t) :
    ParseTagStr caseTable ([','].intercalate tokens)
      = some { Keys := some (keysOf tokens),
               Options := some (optionsFrom caseTable [] tokens) } := by
  rw [ParseTagStr_eq, (splitOn_rendered tokens h).1, (splitOn_rendered tokens h).2]

theorem not_mem_optionToken {c : Char} {e : Str × Str} (hc : c ≠ '=') (h1 : c ∉ e.1)
    (h2 : c ∉ e.2) : c ∉ optionToken e := by
  simp [optionToken, hc, h1, h2]

/-! ## Lower-casing -/

theorem toNat_ofNat_of_lt {n : Nat} (h : n < 55296) : (Char.ofNat n).toNat = n := by
  have hv : n.isValidChar := Or.inl h
  unfold Char.ofNat
  rw [dif_pos hv]
  simp [Char.ofNatAux, Char.toNat, UInt32.toNat]

theorem unicodeToLower_capital (caseTable : Char → Char) (r : Char)
    (h : 65 ≤ r.toNat ∧ r.toNat ≤ 90) :
    (unicodeToLower caseTable r).toNat = r.toNat + 32 := by
  have h1 : r.toNat ≤ 127 := by omega
  simp only [unicodeToLower, h1, h, and_self, if_true]
  exact toNat_ofNat_of_lt (by omega)

theorem unicodeToLower_asciiCaseTable_idem (r : Char) :
    unicodeToLower asciiCaseTable (unicodeToLower asciiCaseTable r)
      = unicodeToLower asciiCaseTable r := by
  by_cases h1 : r.toNat ≤ 127
  · by_cases h2 : 65 ≤ r.toNat ∧ r.toNat ≤ 90
    · have h3 := unicodeToLower_capital asciiCaseTable r h2
      generalize unicodeToLower asciiCaseTable r = q at h3
      have h4 : q.toNat ≤ 127 := by omega
      have h5 : ¬ (65 ≤ q.toNat ∧ q.toNat ≤ 90) := by omega
      simp [unicodeToLower, h4, h5]
    · simp [unicodeToLower, h1, h2]
  · simp [unicodeToLower, h1, asciiCaseTable]

theorem ToLower_idem (caseTable : Char → Char)
    (hidem : ∀ r, unicodeToLower caseTable (unicodeToLower caseTable r)
      = unicodeToLower caseTable r) (s : Str) :
    ToLower caseTable (ToLower caseTable s) = ToLower caseTable s := by
  simp [ToLower, List.map_map, Function.comp_def, hidem]

theorem fixed_of_mem_ToLower (caseTable : Char → Char)
    (hidem : ∀ r, unicodeToLower caseTable (unicodeToLower caseTable r)
      = unicodeToLower caseTable r) (s : Str) :
    ∀ r ∈ ToLower caseTable s,
      unicodeToLower caseTable r = r ∧ ¬ (65 ≤ r.toNat ∧ r.toNat ≤ 90) := by
  intro r hr
  obtain ⟨q, -, rfl⟩ := List.mem_map.mp hr
  refine ⟨hidem q, fun h => ?_⟩
  have h1 := unicodeToLower_capital caseTable _ h
  rw [hidem q] at h1
  omega

theorem unicodeIsUpper_ascii (upperTable : Char → Bool) (r : Char) (h : r.toNat ≤ 127) :
    unicodeIsUpper upperTable r = decide (65 ≤ r.toNat ∧ r.toNat ≤ 90) := by
  have h1 : r.toNat ≤ 255 := by omega
  have h2 : ¬ (192 ≤ r.toNat ∧ r.toNat ≤ 214) := by omega
  have h3 : ¬ (216 ≤ r.toNat ∧ r.toNat ≤ 222) := by omega
  simp [unicodeIsUpper, h1, h2, h3]

theorem ParseTagStr_one_option (caseTable : Char → Char) (n v : Str)
    (hn : ',' ∉ n ∧ '=' ∉ n) (hv : ',' ∉ v) :
    ParseTagStr caseTable (n ++ ['='] ++ v)
      = some { Keys := some [],
               Options := some [(ToLower caseTable n, ToLower caseTable v)] } := by
  have hstr : n ++ ['='] ++ v = [','].intercalate [n ++ '=' :: v] := by
    simp [List.intercalate]
  have hcomma : ∀ t ∈ [n ++ '=' :: v], ',' ∉ t := by
    intro t ht
    simp only [List.mem_singleton] at ht
    subst ht
    simp [hn.1, hv]
  obtain ⟨a, b⟩ := nameOf_append_eq v hn.2
  rw [hstr, ParseTagStr_intercalate caseTable _ hcomma]
  simp [keysOf, optionsFrom, a, b]

theorem mem_optionsFrom (caseTable : Char → Char) (tokens : List Str) :
    ∀ (es : List (Str × Str)) (e : Str × Str), e ∈ optionsFrom caseTable es tokens →
      e ∈ es ∨ ∃ tok ∈ tokens, '=' ∈ tok ∧
        e = (ToLower caseTable (nameOf tok), ToLower caseTable (valueOf tok)) := by
  induction tokens with
  | nil => intro es e h; exact Or.inl h
  | cons t rest ih =>
    intro es e h
    rw [optionsFrom_cons] at h
    rcases ih _ e h with h1 | ⟨tok, hm, h2, h3⟩
    · by_cases ht : '=' ∈ t
      · simp only [optionsFrom, List.foldl_cons, List.foldl_nil, ht, if_true,
          List.mem_cons] at h1
        rcases h1 with h1 | h1
        · exact Or.inr ⟨t, List.mem_cons_self _ _, ht, h1⟩
        · exact Or.inl (List.mem_of_mem_filter h1)
      · simp only [optionsFrom, List.foldl_cons, List.foldl_nil, ht, if_false] at h1
        exact Or.inl h1
    · exact Or.inr ⟨tok, List.mem_cons_of_mem _ hm, h2, h3⟩

/-! ## The keys and options of a parsed string -/

/-- C1: for every string `s`, `ParseTagStr s` returns, and its `Keys` is the
allocated slice holding exactly the comma-separated tokens of `s` that are
non-empty and contain no `=`, in their order, verbatim and with duplicates
kept.  The tokens are the pieces of `s` between its commas, which is what
`strings.Split` returns: joined with commas they give `s` back, and none of
them contains a comma. -/
theorem ParseTagStr_keys_eq_filter (caseTable : Char → Char) (s : Str) :
    (ParseTagStr caseTable s).map Tag.Keys
        = some (some ((s.splitOn ',').filter
            (fun tok => decide (tok ≠ []) && !decide ('=' ∈ tok))))
      ∧ Split s ',' = s.splitOn ','
      ∧ [','].intercalate (s.splitOn ',') = s
      ∧ ∀ tok ∈ s.splitOn ',', ',' ∉ tok := by
  refine ⟨?_, Split_eq_splitOn s ',', List.intercalate_splitOn s ',',
    not_mem_of_mem_splitOn ',' s⟩
  rw [ParseTagStr_eq]
  rfl

/-- C2: for every string `s` there is a map `m`, the `Options` of
`ParseTagStr s`, such that for every name `n`: `m` contains `n` iff some
comma-separated token of `s` contains `=` and its part before the first `=`
lower-cases to `n`; and `m[n] = v` iff `v` is the lower-casing of everything
after the first `=` in the last such token of `s`. -/
theorem ParseTagStr_options_last_token (caseTable : Char → Char) (s : Str) :
    ∃ m : GoMap, (ParseTagStr caseTable s).map Tag.Options = some m ∧
      (∀ n : Str, (m.get n).isSome = true ↔
        ∃ tok ∈ s.splitOn ',', '=' ∈ tok ∧ ToLower caseTable (nameOf tok) = n) ∧
      (∀ n v : Str, m.get n = some v ↔
        ∃ pre tok post, s.splitOn ',' = pre ++ tok :: post ∧ '=' ∈ tok ∧
          ToLower caseTable (nameOf tok) = n ∧
          (∀ t ∈ post, ¬ ('=' ∈ t ∧ ToLower caseTable (nameOf t) = n)) ∧
          v = ToLower caseTable (valueOf tok)) := by
  refine ⟨some (optionsFrom caseTable [] (s.splitOn ',')), ?_, ?_, ?_⟩
  · rw [ParseTagStr_eq]; rfl
  · intro n
    constructor
    · intro h
      obtain ⟨v, hv⟩ := Option.isSome_iff_exists.mp h
      obtain ⟨pre, tok, post, heq, h1, h2, -, -⟩ :=
        (lookup_optionsFrom_last caseTable n v (s.splitOn ',')).mp hv
      exact ⟨tok, by rw [heq]; simp, h1, h2⟩
    · intro h
      obtain ⟨pre, tok, post, heq, hP, hpost⟩ :=
        exists_last_of_exists (fun t => '=' ∈ t ∧ ToLower caseTable (nameOf t) = n)
          (s.splitOn ',') h
      have := (lookup_optionsFrom_last caseTable n (ToLower caseTable (valueOf tok))
        (s.splitOn ',')).mpr ⟨pre, tok, post, heq, hP.1, hP.2, hpost, rfl⟩
      show (List.lookup n (optionsFrom caseTable [] (s.splitOn ','))).isSome = true
      rw [this]; rfl
  · intro n v
    exact lookup_optionsFrom_last caseTable n v (s.splitOn ',')

/-- C3: `ParseTagStr` is total: for every string it returns a `Tag` (no panic).
In particular, for every token that contains `=`, `SplitN(token, "=", 2)` has
exactly two parts, so `parts[0]` and `parts[1]` are in range, and a round of the
loop on a tag whose map is allocated does not panic. -/
theorem ParseTagStr_total (caseTable : Char → Char) (s : Str) :
    (∃ t : Tag, ParseTagStr caseTable s = some t) ∧
      (∀ token : Str, Contains token '=' = true →
        (SplitN token '=' 2).length = 2 ∧
        (∃ p0 p1, (SplitN token '=' 2)[0]? = some p0 ∧ (SplitN token '=' 2)[1]? = some p1)) ∧
      (∀ (ks : List Str) (es : List (Str × Str)) (token : Str),
        ∃ t : Tag, parseStep caseTable { Keys := some ks, Options := some es } token = some t) := by
  refine ⟨⟨_, ParseTagStr_eq caseTable s⟩, ?_, ?_⟩
  · intro token h
    rw [SplitN_two (Contains_iff.mp h)]
    exact ⟨rfl, nameOf token, valueOf token, rfl, rfl⟩
  · intro ks es token
    exact ⟨_, parseStep_eq caseTable ks es token⟩

/-- C3 at the token `a=b` and the string `k,a=b`. -/
theorem ParseTagStr_total_witness :
    (∃ t : Tag, ParseTagStr asciiCaseTable "k,a=b".toList = some t) ∧
      (SplitN "a=b".toList '=' 2).length = 2 :=
  ⟨(ParseTagStr_total asciiCaseTable "k,a=b".toList).1,
   ((ParseTagStr_total asciiCaseTable "k,a=b".toList).2.1 "a=b".toList (by decide)).1⟩

/-- C4: parsing undoes rendering.  For keys `ks`, each non-empty and without `,`
and `=`, and option pairs `opts` with pairwise distinct names, names without
`,` and `=`, values without `,`, names and values unchanged by `ToLower`:
`ParseTagStr` of the comma-join of the keys followed by the tokens `n=v`
returns a tag whose `Keys` is `ks` and whose `Options` is an allocated map with
as many entries as `opts` in which `n` maps to `v` exactly for the pairs
`(n, v)` of `opts`. -/
theorem ParseTagStr_rendered (caseTable : Char → Char) (ks : List Str)
    (opts : List (Str × Str))
    (hks : ∀ k ∈ ks, k ≠ [] ∧ ',' ∉ k ∧ '=' ∉ k)
    (hnames : (opts.map Prod.fst).Nodup)
    (hopts : ∀ e ∈ opts, ',' ∉ e.1 ∧ '=' ∉ e.1 ∧ ',' ∉ e.2 ∧
      ToLower caseTable e.1 = e.1 ∧ ToLower caseTable e.2 = e.2) :
    ∃ t : Tag,
      ParseTagStr caseTable ([','].intercalate (ks ++ opts.map optionToken)) = some t ∧
      t.Keys = some ks ∧ t.Options.isSome = true ∧ t.Options.len = opts.length ∧
      ∀ n v : Str, t.Options.get n = some v ↔ (n, v) ∈ opts := by
  have hcomma : ∀ t ∈ ks ++ opts.map optionToken, ',' ∉ t := by
    intro t ht
    rcases List.mem_append.mp ht with h | h
    · exact (hks t h).2.1
    · obtain ⟨e, he, rfl⟩ := List.mem_map.mp h
      obtain ⟨a, -, b, -, -⟩ := hopts e he
      exact not_mem_optionToken (by decide) a b
  have hopt : optionsFrom caseTable [] (ks ++ opts.map optionToken) = opts.reverse := by
    rw [optionsFrom_append, optionsFrom_of_keys caseTable ks (fun t ht => (hks t ht).2.2),
      optionsFrom_rendered caseTable opts [] hnames
        (fun e he => ⟨(hopts e he).2.1, (hopts e he).2.2.2.1, (hopts e he).2.2.2.2⟩)
        (fun e _ => by simp)]
    simp
  refine ⟨_, ParseTagStr_intercalate caseTable _ hcomma, ?_, rfl, ?_, ?_⟩
  · show some (keysOf (ks ++ opts.map optionToken)) = some ks
    rw [keysOf_rendered ks opts (fun k hk => ⟨(hks k hk).1, (hks k hk).2.2⟩)]
  · show (optionsFrom caseTable [] (ks ++ opts.map optionToken)).length = opts.length
    rw [hopt, List.length_reverse]
  · intro n v
    show List.lookup n (optionsFrom caseTable [] (ks ++ opts.map optionToken)) = some v ↔ _
    rw [hopt, lookup_iff_mem_of_nodup n v opts.reverse
      (by rw [List.map_reverse]; exact List.nodup_reverse.mpr hnames), List.mem_reverse]

/-- C4 at the keys `key1`, `key2` and the option `option1=value1`; the rendered
string is `key1,key2,option1=value1`, and its parse is the tag of the test. -/
theorem ParseTagStr_rendered_witness :
    (∃ t : Tag,
      ParseTagStr asciiCaseTable ([','].intercalate
        (["key1".toList, "key2".toList] ++
          [("option1".toList, "value1".toList)].map optionToken)) = some t ∧
      t.Keys = some ["key1".toList, "key2".toList] ∧ t.Options.isSome = true ∧
      t.Options.len = [("option1".toList, "value1".toList)].length ∧
      ∀ n v : Str, t.Options.get n = some v ↔
        (n, v) ∈ [("option1".toList, "value1".toList)]) ∧
    [','].intercalate (["key1".toList, "key2".toList] ++
        [("option1".toList, "value1".toList)].map optionToken)
      = "key1,key2,option1=value1".toList ∧
    ParseTagStr asciiCaseTable "key1,key2,option1=value1".toList
      = some { Keys := some ["key1".toList, "key2".toList],
               Options := some [("option1".toList, "value1".toList)] } :=
  ⟨ParseTagStr_rendered asciiCaseTable ["key1".toList, "key2".toList]
      [("option1".toList, "value1".toList)] (by decide) (by decide) (by decide),
    by decide, by decide⟩

/-- C5: later options overwrite earlier ones with the same lower-cased name.
For names `n1`, `n2` without `,` and `=` whose lower-casings are equal and
values `v1`, `v2` without `,`, the `Options` of
`ParseTagStr (n1 + "=" + v1 + "," + n2 + "=" + v2)` is the allocated map with
the single entry `lower(n1) -> lower(v2)`. -/
theorem ParseTagStr_last_option_wins (caseTable : Char → Char) (n1 n2 v1 v2 : Str)
    (hn1 : ',' ∉ n1 ∧ '=' ∉ n1) (hn2 : ',' ∉ n2 ∧ '=' ∉ n2)
    (hv1 : ',' ∉ v1) (hv2 : ',' ∉ v2)
    (hlow : ToLower caseTable n1 = ToLower caseTable n2) :
    ∃ t : Tag,
      ParseTagStr caseTable (n1 ++ ['='] ++ v1 ++ [','] ++ n2 ++ ['='] ++ v2) = some t ∧
      t.Options = some [(ToLower caseTable n1, ToLower caseTable v2)] ∧
      t.Options.len = 1 ∧
      t.Options.get (ToLower caseTable n1) = some (ToLower caseTable v2) := by
  have hstr : n1 ++ ['='] ++ v1 ++ [','] ++ n2 ++ ['='] ++ v2
      = [','].intercalate [n1 ++ '=' :: v1, n2 ++ '=' :: v2] := by
    simp [List.intercalate]
  have hcomma : ∀ t ∈ [n1 ++ '=' :: v1, n2 ++ '=' :: v2], ',' ∉ t := by
    intro t ht
    simp only [List.mem_cons, List.mem_singleton, List.not_mem_nil, or_false] at ht
    rcases ht with h | h <;> subst h
    · simp [hn1.1, hv1]
    · simp [hn2.1, hv2]
  obtain ⟨a1, -⟩ := nameOf_append_eq v1 hn1.2
  obtain ⟨a2, b2⟩ := nameOf_append_eq v2 hn2.2
  have hopt : optionsFrom caseTable [] [n1 ++ '=' :: v1, n2 ++ '=' :: v2]
      = [(ToLower caseTable n1, ToLower caseTable v2)] := by
    simp [optionsFrom, a1, a2, b2, hlow]
  rw [hstr, ParseTagStr_intercalate caseTable _ hcomma, hopt]
  refine ⟨_, rfl, rfl, rfl, ?_⟩
  simp [GoMap.get, GoMap.entries, List.lookup_cons]

/-- C5 at `o=1,o=2`, which gives the map with the single entry `o -> 2`, and at
`Opt=a,oPT=B`. -/
theorem ParseTagStr_last_option_wins_witness :
    (∃ t : Tag, ParseTagStr asciiCaseTable
        ("o".toList ++ ['='] ++ "1".toList ++ [','] ++ "o".toList ++ ['='] ++ "2".toList)
          = some t ∧
      t.Options = some [(ToLower asciiCaseTable "o".toList, ToLower asciiCaseTable "2".toList)] ∧
      t.Options.len = 1 ∧
      t.Options.get (ToLower asciiCaseTable "o".toList)
        = some (ToLower asciiCaseTable "2".toList)) ∧
    (ParseTagStr asciiCaseTable "o=1,o=2".toList).map Tag.Options
      = some (some [("o".toList, "2".toList)]) ∧
    (ParseTagStr asciiCaseTable "Opt=a,oPT=B".toList).map Tag.Options
      = some (some [("opt".toList, "b".toList)]) :=
  ⟨ParseTagStr_last_option_wins asciiCaseTable "o".toList "o".toList "1".toList "2".toList
      (by decide) (by decide) (by decide) (by decide) (by decide),
    by decide, by decide⟩

/-- C6: an option token is split at its first `=` only.  For every name `n`
without `,` and `=` (possibly empty) and every value `v` without `,` (possibly
empty, possibly with further `=`), `ParseTagStr (n + "=" + v)` has the empty
allocated `Keys` and as `Options` the allocated map with the single entry
`lower(n) -> lower(v)`. -/
theorem ParseTagStr_single_option (caseTable : Char → Char) (n v : Str)
    (hn : ',' ∉ n ∧ '=' ∉ n) (hv : ',' ∉ v) :
    ParseTagStr caseTable (n ++ ['='] ++ v)
      = some { Keys := some [],
               Options := some [(ToLower caseTable n, ToLower caseTable v)] } := by
  have hstr : n ++ ['='] ++ v = [','].intercalate [n ++ '=' :: v] := by
    simp [List.intercalate]
  have hcomma : ∀ t ∈ [n ++ '=' :: v], ',' ∉ t := by
    intro t ht
    simp only [List.mem_singleton] at ht
    subst ht
    simp [hn.1, hv]
  obtain ⟨a, b⟩ := nameOf_append_eq v hn.2
  rw [hstr, ParseTagStr_intercalate caseTable _ hcomma]
  simp [keysOf, optionsFrom, a, b]

/-- C6 at `o=a=b`, `=value` and `key=`. -/
theorem ParseTagStr_single_option_witness :
    ParseTagStr asciiCaseTable "o=a=b".toList
        = some { Keys := some [], Options := some [("o".toList, "a=b".toList)] } ∧
      ParseTagStr asciiCaseTable "=value".toList
        = some { Keys := some [], Options := some [([], "value".toList)] } ∧
      ParseTagStr asciiCaseTable "key=".toList
        = some { Keys := some [], Options := some [("key".toList, [])] } :=
  ⟨ParseTagStr_single_option asciiCaseTable "o".toList "a=b".toList (by decide) (by decide),
   ParseTagStr_single_option asciiCaseTable [] "value".toList (by decide) (by decide),
   ParseTagStr_single_option asciiCaseTable "key".toList [] (by decide) (by decide)⟩

/-- C7, as amended: for every string `s`, every option name and every option
value stored in the `Options` of `ParseTagStr s` is a result of lower-casing:
lower-casing it again leaves it unchanged, and it contains no rune that
lower-casing changes, in particular no ASCII upper-case letter `A`..`Z`.  It can
contain upper-case letters that have no lower-case form.  The Unicode case
table is a parameter; the statement is for every table for which lower-casing
a rune twice is the same as lower-casing it once. -/
theorem ParseTagStr_options_fixed_by_ToLower (caseTable : Char → Char)
    (hidem : ∀ r, unicodeToLower caseTable (unicodeToLower caseTable r)
      = unicodeToLower caseTable r)
    (upperTable : Char → Bool) (s : Str) :
    ∃ m : GoMap, (ParseTagStr caseTable s).map Tag.Options = some m ∧
      ∀ e ∈ m.entries,
        (∃ n v : Str, e = (ToLower caseTable n, ToLower caseTable v)) ∧
        ToLower caseTable e.1 = e.1 ∧ ToLower caseTable e.2 = e.2 ∧
        (∀ r ∈ e.1, unicodeToLower caseTable r = r ∧ ¬ (65 ≤ r.toNat ∧ r.toNat ≤ 90) ∧
          (r.toNat ≤ 127 → unicodeIsUpper upperTable r = false)) ∧
        (∀ r ∈ e.2, unicodeToLower caseTable r = r ∧ ¬ (65 ≤ r.toNat ∧ r.toNat ≤ 90) ∧
          (r.toNat ≤ 127 → unicodeIsUpper upperTable r = false)) := by
  have hrune : ∀ (x : Str), ∀ r ∈ ToLower caseTable x,
      unicodeToLower caseTable r = r ∧ ¬ (65 ≤ r.toNat ∧ r.toNat ≤ 90) ∧
        (r.toNat ≤ 127 → unicodeIsUpper upperTable r = false) := by
    intro x r hr
    obtain ⟨h1, h2⟩ := fixed_of_mem_ToLower caseTable hidem x r hr
    refine ⟨h1, h2, fun h3 => ?_⟩
    rw [unicodeIsUpper_ascii upperTable r h3]
    simp only [decide_eq_false_iff_not]
    exact h2
  refine ⟨some (optionsFrom caseTable [] (s.splitOn ',')), ?_, ?_⟩
  · rw [ParseTagStr_eq]; rfl
  · intro e he
    rcases mem_optionsFrom caseTable _ [] e he with h | ⟨tok, -, -, rfl⟩
    · simp at h
    · exact ⟨⟨_, _, rfl⟩, ToLower_idem caseTable hidem _, ToLower_idem caseTable hidem _,
        hrune _, hrune _⟩

/-- C7 as amended, at `OPT=VAL`, which gives the map with the single entry
`opt -> val`. -/
theorem ParseTagStr_options_fixed_by_ToLower_witness :
    (∃ m : GoMap, (ParseTagStr asciiCaseTable "OPT=VAL".toList).map Tag.Options = some m ∧
      ∀ e ∈ m.entries,
        (∃ n v : Str, e = (ToLower asciiCaseTable n, ToLower asciiCaseTable v)) ∧
        ToLower asciiCaseTable e.1 = e.1 ∧ ToLower asciiCaseTable e.2 = e.2 ∧
        (∀ r ∈ e.1, unicodeToLower asciiCaseTable r = r ∧ ¬ (65 ≤ r.toNat ∧ r.toNat ≤ 90) ∧
          (r.toNat ≤ 127 → unicodeIsUpper upperSample r = false)) ∧
        (∀ r ∈ e.2, unicodeToLower asciiCaseTable r = r ∧ ¬ (65 ≤ r.toNat ∧ r.toNat ≤ 90) ∧
          (r.toNat ≤ 127 → unicodeIsUpper upperSample r = false))) ∧
    (ParseTagStr asciiCaseTable "OPT=VAL".toList).map Tag.Options
      = some (some [("opt".toList, "val".toList)]) :=
  ⟨ParseTagStr_options_fixed_by_ToLower asciiCaseTable unicodeToLower_asciiCaseTable_idem
      upperSample "OPT=VAL".toList, by decide⟩

/-- C7 as stated fails: on the string made of U+2102, `=` and U+1D400 the stored
option name is U+2102 and the stored value is U+1D400, both upper-case letters
(`unicode.IsUpper`), for every case table that, as Go's does, has no lower-case
form for these two runes; so it is not true that for every string the stored
names and values contain no upper-case letter. -/
theorem ParseTagStr_stores_upper_case_letter :
    ParseTagStr asciiCaseTable [Char.ofNat 8450, '=', Char.ofNat 119808]
        = some { Keys := some [],
                 Options := some [([Char.ofNat 8450], [Char.ofNat 119808])] } ∧
      unicodeIsUpper upperSample (Char.ofNat 8450) = true ∧
      unicodeIsUpper upperSample (Char.ofNat 119808) = true ∧
      (∀ caseTable : Char → Char,
        caseTable (Char.ofNat 8450) = Char.ofNat 8450 →
        caseTable (Char.ofNat 119808) = Char.ofNat 119808 →
        ParseTagStr caseTable [Char.ofNat 8450, '=', Char.ofNat 119808]
          = some { Keys := some [],
                   Options := some [([Char.ofNat 8450], [Char.ofNat 119808])] }) ∧
      ¬ (∀ s : Str, ∃ m : GoMap,
          (ParseTagStr asciiCaseTable s).map Tag.Options = some m ∧
          ∀ e ∈ m.entries,
            (∀ r ∈ e.1, unicodeIsUpper upperSample r = false) ∧
            (∀ r ∈ e.2, unicodeIsUpper upperSample r = false)) := by
  have hgen : ∀ caseTable : Char → Char,
      caseTable (Char.ofNat 8450) = Char.ofNat 8450 →
      caseTable (Char.ofNat 119808) = Char.ofNat 119808 →
      ParseTagStr caseTable [Char.ofNat 8450, '=', Char.ofNat 119808]
        = some { Keys := some [],
                 Options := some [([Char.ofNat 8450], [Char.ofNat 119808])] } := by
    intro caseTable h1 h2
    have h := ParseTagStr_one_option caseTable [Char.ofNat 8450] [Char.ofNat 119808]
      (by decide) (by decide)
    have e1 : unicodeToLower caseTable (Char.ofNat 8450) = Char.ofNat 8450 := by
      have : ¬ ((Char.ofNat 8450).toNat ≤ 127) := by decide
      simp only [unicodeToLower, this, if_false, h1]
    have e2 : unicodeToLower caseTable (Char.ofNat 119808) = Char.ofNat 119808 := by
      have : ¬ ((Char.ofNat 119808).toNat ≤ 127) := by decide
      simp only [unicodeToLower, this, if_false, h2]
    simpa [ToLower, e1, e2] using h
  have hval : ParseTagStr asciiCaseTable [Char.ofNat 8450, '=', Char.ofNat 119808]
      = some { Keys := some [],
               Options := some [([Char.ofNat 8450], [Char.ofNat 119808])] } :=
    hgen asciiCaseTable rfl rfl
  refine ⟨hval, by decide, by decide, hgen, ?_⟩
  intro hall
  obtain ⟨m, hm, hno⟩ := hall [Char.ofNat 8450, '=', Char.ofNat 119808]
  rw [hval] at hm
  have hm2 : m = some [([Char.ofNat 8450], [Char.ofNat 119808])] := by
    simpa using hm.symm
  subst hm2
  have := (hno ([Char.ofNat 8450], [Char.ofNat 119808]) (by simp [GoMap.entries])).1
    (Char.ofNat 8450) (by simp)
  revert this
  decide

/-- C8: `ParseTagStr("")` returns the tag whose `Keys` is the empty allocated
slice and whose `Options` is the empty allocated map, and `IsEmpty` is true on
it; splitting the empty string gives the single empty token, which the loop
discards. -/
theorem ParseTagStr_empty (caseTable : Char → Char) :
    ParseTagStr caseTable [] = some { Keys := some [], Options := some [] } ∧
      (ParseTagStr caseTable []).map Tag.IsEmpty = some true ∧
      Split [] ',' = [[]] ∧
      parseStep caseTable { Keys := some [], Options := some [] } []
        = some { Keys := some [], Options := some [] } := by
  have h : ParseTagStr caseTable [] = some { Keys := some [], Options := some [] } := by
    rw [ParseTagStr_eq]; rfl
  refine ⟨h, ?_, by decide, ?_⟩
  · rw [h]; rfl
  · rw [parseStep_eq]; rfl

/-- C9: for every tag `t`, also with nil or empty `Keys`, and every string `c`,
`t.HasKey(c)` is true iff `c` is equal to some element of `t.Keys`; equality of
strings is exact, rune by rune.  With keys `key1`, `key2`: `key1` is found and
`key3` is not; with the key `key1`, `Key1` is not found; with nil or empty keys
`key1` is not found. -/
theorem HasKey_iff_mem :
    (∀ (t : Tag) (c : Str), t.HasKey c = true ↔ c ∈ t.Keys.elems) ∧
      (∀ (o : GoMap) (c : Str), Tag.HasKey { Keys := none, Options := o } c = false) ∧
      (∀ (o : GoMap) (c : Str), Tag.HasKey { Keys := some [], Options := o } c = false) ∧
      Tag.HasKey { Keys := some ["key1".toList, "key2".toList], Options := none } "key1".toList
        = true ∧
      Tag.HasKey { Keys := some ["key1".toList, "key2".toList], Options := none } "key3".toList
        = false ∧
      Tag.HasKey { Keys := some ["key1".toList], Options := none } "Key1".toList = false ∧
      Tag.HasKey { Keys := none, Options := none } "key1".toList = false ∧
      Tag.HasKey { Keys := some [], Options := none } "key1".toList = false := by
  have hloop : ∀ (c : Str) (l : List Str), hasKeyLoop c l = true ↔ c ∈ l := by
    intro c l
    induction l with
    | nil => simp [hasKeyLoop]
    | cons k ks ih =>
      by_cases hk : k = c
      · simp [hasKeyLoop, hk]
      · have hk2 : ¬ c = k := fun e => hk e.symm
        simp [hasKeyLoop, hk, hk2, ih]
  exact ⟨fun t c => hloop c _, fun _ _ => rfl, fun _ _ => rfl, by decide, by decide, by decide,
    by decide, by decide⟩

/-- C10: for every tag `t`, also the zero tag with nil `Keys` and nil `Options`,
`t.IsEmpty()` is true iff `t.HasKeys()` and `t.HasOptions()` are both false, iff
`t.Keys` has length 0 and `t.Options` has no entries; it is false whenever a key
or an option is present; and it is true on the zero tag. -/
theorem IsEmpty_iff :
    (∀ t : Tag, t.IsEmpty = true ↔ (t.HasKeys = false ∧ t.HasOptions = false)) ∧
      (∀ t : Tag, t.IsEmpty = true ↔ (t.Keys.len = 0 ∧ t.Options.entries = [])) ∧
      (∀ t : Tag, (t.Keys.elems ≠ [] ∨ t.Options.entries ≠ []) → t.IsEmpty = false) ∧
      Tag.IsEmpty { Keys := none, Options := none } = true := by
  have h2 : ∀ t : Tag, t.IsEmpty = true ↔ (t.Keys.len = 0 ∧ t.Options.entries = []) := by
    intro t
    simp only [Tag.IsEmpty, Tag.HasKeys, Tag.HasOptions, Slice.len, GoMap.len, Bool.and_eq_true,
      Bool.not_eq_true', decide_eq_false_iff_not, gt_iff_lt, not_lt, Nat.le_zero,
      List.length_eq_zero]
  refine ⟨?_, h2, ?_, rfl⟩
  · intro t
    simp [Tag.IsEmpty]
  · intro t h
    cases hE : t.IsEmpty with
    | false => rfl
    | true =>
      obtain ⟨a, b⟩ := (h2 t).mp hE
      have a2 : t.Keys.elems = [] := List.length_eq_zero.mp a
      rcases h with h | h
      · exact absurd a2 h
      · exact absurd b h

/-- C10 at a tag with one key and no option, and at one with one option and no
key: `IsEmpty` is false on both. -/
theorem IsEmpty_iff_witness :
    Tag.IsEmpty { Keys := some ["key1".toList], Options := some [] } = false ∧
      Tag.IsEmpty { Keys := some [], Options := some [("option1".toList, "value1".toList)] }
        = false :=
  ⟨IsEmpty_iff.2.2.1 _ (Or.inl (by decide)), IsEmpty_iff.2.2.1 _ (Or.inr (by decide))⟩

/-! ## Allocation, spaces and struct fields -/

theorem ParseTagStr_single_key (caseTable : Char → Char) (token : Str)
    (h1 : token ≠ []) (h2 : ',' ∉ token) (h3 : '=' ∉ token) :
    ParseTagStr caseTable token = some { Keys := some [token], Options := some [] } := by
  have hstr : token = [','].intercalate [token] := by simp [List.intercalate]
  have hcomma : ∀ t ∈ [token], ',' ∉ t := by
    intro t ht
    simp only [List.mem_singleton] at ht
    subst ht
    exact h2
  conv_lhs => rw [hstr]
  rw [ParseTagStr_intercalate caseTable _ hcomma]
  simp [keysOf, optionsFrom, h1, h3]

/-- C11: for every string `s`, both containers of `ParseTagStr s` are allocated:
`Keys` is a slice `some ks` and `Options` a map `some es`, never the nil state
`none`, whether or not `s` holds a key or an option token; for the empty
string both are allocated and empty. -/
theorem ParseTagStr_allocated (caseTable : Char → Char) (s : Str) :
    (∃ (ks : List Str) (es : List (Str × Str)),
        ParseTagStr caseTable s = some { Keys := some ks, Options := some es }) ∧
      (ParseTagStr caseTable s).map (fun t => decide (t.Keys ≠ none ∧ t.Options ≠ none))
        = some true ∧
      ParseTagStr caseTable [] = some { Keys := some [], Options := some [] } := by
  refine ⟨⟨_, _, ParseTagStr_eq caseTable s⟩, ?_, ?_⟩
  · rw [ParseTagStr_eq]; rfl
  · rw [ParseTagStr_eq]; rfl

/-- C12: no whitespace trimming.  For every string `w` of one or more spaces and
every string `k` without `,` and `=`, `ParseTagStr (w + k + w)` has as `Keys` the
one-element slice holding `w + k + w` with its spaces, and no option; a token
of spaces only is kept as a key, and `ParseTagStr " "` has the key `" "` and is
not empty. -/
theorem ParseTagStr_keeps_spaces (caseTable : Char → Char) :
    (∀ w k : Str, w ≠ [] → (∀ c ∈ w, c = ' ') → ',' ∉ k → '=' ∉ k →
        ParseTagStr caseTable (w ++ k ++ w)
          = some { Keys := some [w ++ k ++ w], Options := some [] }) ∧
      (∀ w : Str, w ≠ [] → (∀ c ∈ w, c = ' ') →
        ParseTagStr caseTable w = some { Keys := some [w], Options := some [] }) ∧
      ParseTagStr caseTable [' '] = some { Keys := some [[' ']], Options := some [] } ∧
      (ParseTagStr caseTable [' ']).map Tag.IsEmpty = some false := by
  have hsp : ∀ (w : Str) (c : Char), c ≠ ' ' → (∀ x ∈ w, x = ' ') → c ∉ w :=
    fun w c hc hw hm => hc (hw c hm)
  have hone : ∀ w : Str, w ≠ [] → (∀ c ∈ w, c = ' ') →
      ParseTagStr caseTable w = some { Keys := some [w], Options := some [] } :=
    fun w hne hw => ParseTagStr_single_key caseTable w hne
      (hsp w ',' (by decide) hw) (hsp w '=' (by decide) hw)
  have hsingle : ParseTagStr caseTable [' ']
      = some { Keys := some [[' ']], Options := some [] } :=
    hone [' '] (by simp) (by simp)
  refine ⟨?_, hone, hsingle, ?_⟩
  · intro w k hne hw hk1 hk2
    have hc1 := hsp w ',' (by decide) hw
    have hc2 := hsp w '=' (by decide) hw
    apply ParseTagStr_single_key
    · simp [hne]
    · simp [hc1, hk1]
    · simp [hc2, hk2]
  · rw [hsingle]; rfl

/-- C12 at `w` two spaces and `k = Key`: the only key is `Key` with two spaces
on each side. -/
theorem ParseTagStr_keeps_spaces_witness :
    ParseTagStr asciiCaseTable "  Key  ".toList
      = some { Keys := some ["  Key  ".toList], Options := some [] } :=
  (ParseTagStr_keeps_spaces asciiCaseTable).1 "  ".toList "Key".toList (by decide) (by decide)
    (by decide) (by decide)

/-- C13: for every field and tag name, `ParseTag(field, name)` is `ParseTagStr`
of the string the field registers under that name, for every `Lookup` of the
reflection library; when the field registers nothing under the name (the lookup
answers `none`), the string is empty and the result is `ParseTagStr ""`, the tag
with allocated empty `Keys` and `Options`, and no panic. -/
theorem ParseTag_eq_ParseTagStr (caseTable : Char → Char)
    (lookup : StructTag → Str → Option Str) (field : StructField) (name : Str) :
    (∀ v : Str, lookup field.Tag name = some v →
        ParseTag caseTable lookup field name = ParseTagStr caseTable v) ∧
      (lookup field.Tag name = none →
        StructTagGet lookup field.Tag name = [] ∧
        ParseTag caseTable lookup field name = ParseTagStr caseTable [] ∧
        ParseTag caseTable lookup field name
          = some { Keys := some [], Options := some [] }) ∧
      ParseTag caseTable lookup field name
        = ParseTagStr caseTable (StructTagGet lookup field.Tag name) ∧
      ∃ t : Tag, ParseTag caseTable lookup field name = some t := by
  have hempty : ParseTagStr caseTable [] = some { Keys := some [], Options := some [] } := by
    rw [ParseTagStr_eq]; rfl
  refine ⟨?_, ?_, rfl, ⟨_, ParseTagStr_eq caseTable _⟩⟩
  · intro v hv
    simp [ParseTag, StructTagGet, hv]
  · intro hn
    have hget : StructTagGet lookup field.Tag name = [] := by simp [StructTagGet, hn]
    refine ⟨hget, ?_, ?_⟩
    · simp [ParseTag, hget]
    · simp [ParseTag, hget, hempty]

/-- C13 at the fields of the test: one registering `key1,key2` under
`nottesttag` only and one registering nothing, both read under `testtag`, give
the empty tag; one registering `key1,key2,option1=value1` under `testtag` gives
its parse. -/
theorem ParseTag_eq_ParseTagStr_witness :
    ParseTag asciiCaseTable (listedLookup [("nottesttag".toList, "key1,key2".toList)])
        { Tag := "nottesttag:\"key1,key2\"".toList } "testtag".toList
        = some { Keys := some [], Options := some [] } ∧
      ParseTag asciiCaseTable (listedLookup []) { Tag := [] } "testtag".toList
        = some { Keys := some [], Options := some [] } ∧
      ParseTag asciiCaseTable
          (listedLookup [("testtag".toList, "key1,key2,option1=value1".toList)])
          { Tag := "testtag:\"key1,key2,option1=value1\"".toList } "testtag".toList
        = ParseTagStr asciiCaseTable "key1,key2,option1=value1".toList :=
  ⟨((ParseTag_eq_ParseTagStr asciiCaseTable _ _ _).2.1 (by decide)).2.2,
   ((ParseTag_eq_ParseTagStr asciiCaseTable _ _ _).2.1 (by decide)).2.2,
   (ParseTag_eq_ParseTagStr asciiCaseTable _ _ _).1 _ (by decide)⟩

/-! ## Tokens of a concatenation -/

theorem splitOn_cons_sep (sep : Char) (s : Str) :
    (sep :: s).splitOn sep = [] :: s.splitOn sep := by
  unfold List.splitOn
  rw [List.splitOnP_cons]
  simp

theorem splitOn_cons_ne {sep c : Char} (h : c ≠ sep) (s : Str) :
    ∃ hd tl, s.splitOn sep = hd :: tl ∧ (c :: s).splitOn sep = (c :: hd) :: tl := by
  unfold List.splitOn
  cases hs : List.splitOnP (fun x => x == sep) s with
  | nil => exact absurd hs (List.splitOnP_ne_nil _ _)
  | cons hd tl =>
    refine ⟨hd, tl, rfl, ?_⟩
    have hb : (c == sep) = false := by simp [h]
    rw [List.splitOnP_cons, hs]
    simp [hb]

theorem splitOn_append_sep (sep : Char) (b : Str) :
    ∀ a : Str, (a ++ sep :: b).splitOn sep = a.splitOn sep ++ b.splitOn sep := by
  intro a
  induction a with
  | nil =>
    rw [List.nil_append, splitOn_cons_sep]
    rfl
  | cons c cs ih =>
    by_cases hc : c = sep
    · subst hc
      rw [List.cons_append, splitOn_cons_sep, splitOn_cons_sep, ih, List.cons_append]
    · obtain ⟨hd, tl, h1, h2⟩ := splitOn_cons_ne hc cs
      obtain ⟨hd2, tl2, h3, h4⟩ := splitOn_cons_ne hc (cs ++ sep :: b)
      rw [List.cons_append, h4, h2]
      rw [ih, h1, List.cons_append] at h3
      injection h3 with e1 e2
      rw [← e1, ← e2, List.cons_append]

theorem mem_splitOn_iff {sep c : Char} (hc : c ≠ sep) :
    ∀ s : Str, c ∈ s ↔ ∃ tok ∈ s.splitOn sep, c ∈ tok := by
  intro s
  induction s with
  | nil => simp
  | cons x xs ih =>
    by_cases hx : x = sep
    · subst hx
      rw [splitOn_cons_sep]
      simp only [List.mem_cons, hc, false_or, ih]
      constructor
      · rintro ⟨tok, h1, h2⟩
        exact ⟨tok, Or.inr h1, h2⟩
      · rintro ⟨tok, h1 | h1, h2⟩
        · subst h1; simp at h2
        · exact ⟨tok, h1, h2⟩
    · obtain ⟨hd, tl, h1, h2⟩ := splitOn_cons_ne hx xs
      rw [h2]
      rw [h1] at ih
      simp only [List.mem_cons, ih]
      constructor
      · rintro (h | ⟨tok, h3 | h3, h4⟩)
        · exact ⟨x :: hd, Or.inl rfl, by simp [h]⟩
        · subst h3
          exact ⟨x :: tok, Or.inl rfl, by simp [h4]⟩
        · exact ⟨tok, Or.inr h3, h4⟩
      · rintro ⟨tok, h3 | h3, h4⟩
        · subst h3
          rcases List.mem_cons.mp h4 with h5 | h5
          · exact Or.inl h5
          · exact Or.inr ⟨hd, Or.inl rfl, h5⟩
        · exact Or.inr ⟨tok, Or.inr h3, h4⟩

theorem keysOf_append (a b : List Str) : keysOf (a ++ b) = keysOf a ++ keysOf b := by
  unfold keysOf
  rw [List.filter_append]

theorem lookup_optionsFrom_or (caseTable : Char → Char) (n : Str) (es : List (Str × Str)) :
    ∀ tokens : List Str,
      List.lookup n (optionsFrom caseTable es tokens)
        = match List.lookup n (optionsFrom caseTable [] tokens) with
          | some v => some v
          | none => List.lookup n es := by
  intro tokens
  induction tokens using List.reverseRecOn with
  | nil => simp [optionsFrom]
  | append_singleton l t ih =>
    rw [optionsFrom_snoc, lookup_optionsFrom_single, optionsFrom_snoc,
      lookup_optionsFrom_single]
    by_cases ht : '=' ∈ t ∧ ToLower caseTable (nameOf t) = n
    · rw [if_pos ht, if_pos ht]
    · rw [if_neg ht, if_neg ht]
      exact ih

theorem ParseTagStr_concat_eq (caseTable : Char → Char) (a b : Str) :
    ParseTagStr caseTable (a ++ [','] ++ b)
      = some { Keys := some (keysOf (a.splitOn ',') ++ keysOf (b.splitOn ',')),
               Options := some (optionsFrom caseTable
                 (optionsFrom caseTable [] (a.splitOn ',')) (b.splitOn ',')) } := by
  have h : a ++ [','] ++ b = a ++ ',' :: b := by simp
  rw [h, ParseTagStr_eq, splitOn_append_sep, keysOf_append, optionsFrom_append]

theorem ParseTagStr_cons_comma (caseTable : Char → Char) (a : Str) :
    ParseTagStr caseTable (',' :: a) = ParseTagStr caseTable a := by
  rw [ParseTagStr_eq, ParseTagStr_eq, splitOn_cons_sep, keysOf_cons, optionsFrom_cons]
  rfl

theorem ParseTagStr_double_comma (caseTable : Char → Char) (a b : Str) :
    ParseTagStr caseTable (a ++ ',' :: ',' :: b) = ParseTagStr caseTable (a ++ ',' :: b) := by
  have h1 := ParseTagStr_concat_eq caseTable a (',' :: b)
  have h2 := ParseTagStr_concat_eq caseTable a b
  have e1 : a ++ [','] ++ ',' :: b = a ++ ',' :: ',' :: b := by simp
  have e2 : a ++ [','] ++ b = a ++ ',' :: b := by simp
  rw [e1] at h1
  rw [e2] at h2
  rw [h1, h2, splitOn_cons_sep, keysOf_cons, optionsFrom_cons]
  rfl

theorem ParseTagStr_replicate_comma (caseTable : Char → Char) (a b : Str) :
    ∀ k : Nat, ParseTagStr caseTable (a ++ List.replicate (k + 1) ',' ++ b)
      = ParseTagStr caseTable (a ++ [','] ++ b) := by
  intro k
  induction k with
  | zero => rfl
  | succ k ih =>
    have e1 : a ++ List.replicate (k + 1 + 1) ',' ++ b
        = a ++ ',' :: ',' :: (List.replicate k ',' ++ b) := by
      simp [List.replicate_succ]
    have e2 : a ++ ',' :: (List.replicate k ',' ++ b)
        = a ++ List.replicate (k + 1) ',' ++ b := by
      simp [List.replicate_succ]
    rw [e1, ParseTagStr_double_comma, e2, ih]

theorem optionsFrom_eq_nil_iff (caseTable : Char → Char) (tokens : List Str) :
    optionsFrom caseTable [] tokens = [] ↔ ∀ tok ∈ tokens, '=' ∉ tok := by
  constructor
  · intro h tok hm he
    obtain ⟨pre, t, post, heq, hP, hpost⟩ :=
      exists_last_of_exists
        (fun x => '=' ∈ x ∧ ToLower caseTable (nameOf x) = ToLower caseTable (nameOf tok))
        tokens ⟨tok, hm, he, rfl⟩
    have := (lookup_optionsFrom_last caseTable (ToLower caseTable (nameOf tok))
      (ToLower caseTable (valueOf t)) tokens).mpr ⟨pre, t, post, heq, hP.1, hP.2, hpost, rfl⟩
    rw [h] at this
    simp at this
  · intro h
    exact optionsFrom_of_keys caseTable tokens h []

theorem keysOf_eq_nil_iff (tokens : List Str) :
    keysOf tokens = [] ↔ ∀ tok ∈ tokens, tok = [] ∨ '=' ∈ tok := by
  unfold keysOf
  rw [List.filter_eq_nil_iff]
  constructor
  · intro h tok hm
    have := h tok hm
    by_cases h1 : tok = []
    · exact Or.inl h1
    · by_cases h2 : '=' ∈ tok
      · exact Or.inr h2
      · simp [h1, h2] at this
  · intro h tok hm
    rcases h tok hm with h1 | h1
    · simp [h1]
    · simp [h1]

theorem all_comma_iff (s : Str) :
    (∀ c ∈ s, c = ',') ↔ ∀ tok ∈ s.splitOn ',', tok = [] := by
  constructor
  · intro h tok hm
    cases tok with
    | nil => rfl
    | cons c cs =>
      have hc : c ≠ ',' := fun e =>
        not_mem_of_mem_splitOn ',' s _ hm (by rw [e]; exact List.mem_cons_self _ _)
      have : c ∈ s := (mem_splitOn_iff hc s).mpr ⟨_, hm, List.mem_cons_self _ _⟩
      exact absurd (h c this) hc
  · intro h c hc
    by_contra hne
    obtain ⟨tok, hm, hct⟩ := (mem_splitOn_iff hne s).mp hc
    rw [h tok hm] at hct
    simp at hct

theorem IsEmpty_allocated (ks : List Str) (es : List (Str × Str)) :
    Tag.IsEmpty { Keys := some ks, Options := some es } = true ↔ ks = [] ∧ es = [] := by
  simp [Tag.IsEmpty, Tag.HasKeys, Tag.HasOptions, Slice.len, GoMap.len, Slice.elems,
    GoMap.entries]

theorem HasKeys_allocated (ks : List Str) (o : GoMap) :
    Tag.HasKeys { Keys := some ks, Options := o } = true ↔ ks ≠ [] := by
  simp [Tag.HasKeys, Slice.len, Slice.elems, List.length_pos]

theorem HasOptions_allocated (k : Slice) (es : List (Str × Str)) :
    Tag.HasOptions { Keys := k, Options := some es } = true ↔ es ≠ [] := by
  simp [Tag.HasOptions, GoMap.len, GoMap.entries, List.length_pos]

/-- C14: parsing distributes over comma-concatenation.  For all strings `a` and
`b`, the keys of `ParseTagStr (a + "," + b)` are the keys of `ParseTagStr a`
followed by those of `ParseTagStr b`, and its options are those of
`ParseTagStr a` overridden by those of `ParseTagStr b`: a name has the value it
has in `b`, and the value it has in `a` when `b` has none.  So a leading comma,
a trailing comma and repeated commas do not change the result. -/
theorem ParseTagStr_comma_concat (caseTable : Char → Char) (a b : Str) :
    (∃ ta tb tab : Tag,
      ParseTagStr caseTable a = some ta ∧ ParseTagStr caseTable b = some tb ∧
      ParseTagStr caseTable (a ++ [','] ++ b) = some tab ∧
      tab.Keys = some (ta.Keys.elems ++ tb.Keys.elems) ∧
      tab.Options.isSome = true ∧
      ∀ n : Str, tab.Options.get n =
        match tb.Options.get n with
        | some v => some v
        | none => ta.Options.get n) ∧
    ParseTagStr caseTable ([','] ++ a) = ParseTagStr caseTable a ∧
    ParseTagStr caseTable (a ++ [',']) = ParseTagStr caseTable a ∧
    ∀ k : Nat, ParseTagStr caseTable (a ++ List.replicate (k + 1) ',' ++ b)
      = ParseTagStr caseTable (a ++ [','] ++ b) := by
  refine ⟨⟨_, _, _, ParseTagStr_eq caseTable a, ParseTagStr_eq caseTable b,
    ParseTagStr_concat_eq caseTable a b, rfl, rfl, ?_⟩, ParseTagStr_cons_comma caseTable a, ?_,
    ParseTagStr_replicate_comma caseTable a b⟩
  · intro n
    exact lookup_optionsFrom_or caseTable n _ _
  · have h := ParseTagStr_concat_eq caseTable a []
    rw [List.append_nil] at h
    rw [h, ParseTagStr_eq]
    simp [keysOf, optionsFrom]

/-- C15: for every string `s`, `ParseTagStr s` returns a tag on which
`IsEmpty()` is true iff every character of `s` is a comma (as for the empty
string); when some character of `s` is not a comma, a space included, the tag
has at least one key or one option. -/
theorem ParseTagStr_isEmpty_iff_commas (caseTable : Char → Char) (s : Str) :
    ∃ t : Tag, ParseTagStr caseTable s = some t ∧
      (t.IsEmpty = true ↔ ∀ c ∈ s, c = ',') ∧
      ((∃ c ∈ s, c ≠ ',') → (t.HasKeys = true ∨ t.HasOptions = true)) := by
  have hiff :
      Tag.IsEmpty { Keys := some (keysOf (s.splitOn ',')),
                    Options := some (optionsFrom caseTable [] (s.splitOn ',')) } = true
        ↔ ∀ c ∈ s, c = ',' := by
    rw [IsEmpty_allocated, keysOf_eq_nil_iff, optionsFrom_eq_nil_iff, all_comma_iff]
    constructor
    · rintro ⟨h1, h2⟩ tok hm
      rcases h1 tok hm with h | h
      · exact h
      · exact absurd h (h2 tok hm)
    · intro h
      refine ⟨fun tok hm => Or.inl (h tok hm), fun tok hm => ?_⟩
      rw [h tok hm]
      simp
  refine ⟨_, ParseTagStr_eq caseTable s, hiff, ?_⟩
  rintro ⟨c, hc, hne⟩
  have hnot : ¬ (∀ c ∈ s, c = ',') := fun h => hne (h c hc)
  rw [← hiff, IsEmpty_allocated] at hnot
  rw [HasKeys_allocated, HasOptions_allocated]
  by_cases hk : keysOf (s.splitOn ',') = []
  · exact Or.inr (fun ho => hnot ⟨hk, ho⟩)
  · exact Or.inl hk

/-- C15 at the string of one space, which is not empty, and at `,,`, which is. -/
theorem ParseTagStr_isEmpty_iff_commas_witness :
    (∃ t : Tag, ParseTagStr asciiCaseTable " ".toList = some t ∧
      (t.HasKeys = true ∨ t.HasOptions = true)) ∧
    (ParseTagStr asciiCaseTable " ".toList).map Tag.IsEmpty = some false ∧
    (ParseTagStr asciiCaseTable ",,".toList).map Tag.IsEmpty = some true :=
  ⟨(ParseTagStr_isEmpty_iff_commas asciiCaseTable " ".toList).imp
      (fun _ h => ⟨h.1, h.2.2 ⟨' ', by decide, by decide⟩⟩),
    by decide, by decide⟩

/-! ## Separators in keys and options -/

theorem unicodeToLower_eq_separator (caseTable : Char → Char)
    (htable : ∀ r : Char, 127 < r.toNat → caseTable r ≠ ',' ∧ caseTable r ≠ '=')
    (r c : Char) (hc : c = ',' ∨ c = '=') (h : unicodeToLower caseTable r = c) : r = c := by
  have hcn : c.toNat = 44 ∨ c.toNat = 61 := by
    rcases hc with e | e <;> subst e
    · exact Or.inl rfl
    · exact Or.inr rfl
  by_cases h1 : r.toNat ≤ 127
  · by_cases h2 : 65 ≤ r.toNat ∧ r.toNat ≤ 90
    · have h3 := unicodeToLower_capital caseTable r h2
      rw [h] at h3
      omega
    · simpa [unicodeToLower, h1, h2] using h
  · have h4 : caseTable r = c := by simpa [unicodeToLower, h1] using h
    have h5 := htable r (by omega)
    rcases hc with e | e <;> subst e
    · exact absurd h4 h5.1
    · exact absurd h4 h5.2

theorem not_mem_ToLower (caseTable : Char → Char)
    (htable : ∀ r : Char, 127 < r.toNat → caseTable r ≠ ',' ∧ caseTable r ≠ '=')
    (c : Char) (hc : c = ',' ∨ c = '=') (s : Str) (h : c ∉ s) :
    c ∉ ToLower caseTable s := by
  intro hm
  obtain ⟨r, hr, e⟩ := List.mem_map.mp hm
  have := unicodeToLower_eq_separator caseTable htable r c hc e
  exact h (this ▸ hr)

theorem not_mem_nameOf (token : Str) : '=' ∉ nameOf token := by
  intro h
  have := List.mem_takeWhile_imp h
  simp at this

theorem not_mem_nameOf_of_not_mem {c : Char} {token : Str} (h : c ∉ token) :
    c ∉ nameOf token ∧ c ∉ valueOf token := by
  constructor
  · intro hm
    exact h ((List.takeWhile_prefix _).subset hm)
  · intro hm
    exact h ((List.dropWhile_suffix _).subset (List.mem_of_mem_drop hm))

theorem asciiCaseTable_separator :
    ∀ r : Char, 127 < r.toNat → asciiCaseTable r ≠ ',' ∧ asciiCaseTable r ≠ '=' := by
  intro r h
  constructor
  · intro e
    have e2 : r = ',' := e
    subst e2
    exact absurd h (by decide)
  · intro e
    have e2 : r = '=' := e
    subst e2
    exact absurd h (by decide)

/-- C16: for every string `s`, every key of `ParseTagStr s` is non-empty and
contains neither `,` nor `=`; every option name contains neither `,` nor `=`;
every option value contains no `,`.  The Unicode case table is a parameter; the
statement is for every table that maps no rune outside ASCII to `,` or `=`. -/
theorem ParseTagStr_no_separators (caseTable : Char → Char)
    (htable : ∀ r : Char, 127 < r.toNat → caseTable r ≠ ',' ∧ caseTable r ≠ '=')
    (s : Str) :
    ∃ t : Tag, ParseTagStr caseTable s = some t ∧
      (∀ k ∈ t.Keys.elems, k ≠ [] ∧ ',' ∉ k ∧ '=' ∉ k) ∧
      (∀ e ∈ t.Options.entries, ',' ∉ e.1 ∧ '=' ∉ e.1 ∧ ',' ∉ e.2) := by
  refine ⟨_, ParseTagStr_eq caseTable s, ?_, ?_⟩
  · intro k hk
    have hk2 : k ∈ keysOf (s.splitOn ',') := hk
    unfold keysOf at hk2
    obtain ⟨hm, hp⟩ := List.mem_filter.mp hk2
    have hc := not_mem_of_mem_splitOn ',' s k hm
    simp only [Bool.and_eq_true, decide_eq_true_eq, Bool.not_eq_true',
      decide_eq_false_iff_not] at hp
    exact ⟨hp.1, hc, hp.2⟩
  · intro e he
    rcases mem_optionsFrom caseTable _ [] e he with h | ⟨tok, hm, -, rfl⟩
    · simp at h
    · have hc := not_mem_of_mem_splitOn ',' s tok hm
      obtain ⟨c1, c2⟩ := not_mem_nameOf_of_not_mem hc
      exact ⟨not_mem_ToLower caseTable htable ',' (Or.inl rfl) _ c1,
        not_mem_ToLower caseTable htable '=' (Or.inr rfl) _ (not_mem_nameOf tok),
        not_mem_ToLower caseTable htable ',' (Or.inl rfl) _ c2⟩

/-- C16 at `Key1,,O=a=B`: the key `Key1` and the option `o -> a=b`, whose value
contains `=`. -/
theorem ParseTagStr_no_separators_witness :
    (∃ t : Tag, ParseTagStr asciiCaseTable "Key1,,O=a=B".toList = some t ∧
      (∀ k ∈ t.Keys.elems, k ≠ [] ∧ ',' ∉ k ∧ '=' ∉ k) ∧
      (∀ e ∈ t.Options.entries, ',' ∉ e.1 ∧ '=' ∉ e.1 ∧ ',' ∉ e.2)) ∧
    ParseTagStr asciiCaseTable "Key1,,O=a=B".toList
      = some { Keys := some ["Key1".toList], Options := some [("o".toList, "a=b".toList)] } :=
  ⟨ParseTagStr_no_separators asciiCaseTable asciiCaseTable_separator "Key1,,O=a=B".toList,
    by decide⟩

/-- C17: for every string `s`, `ParseTagStr s` returns a tag on which
`HasOptions()` is true iff `s` contains `=`, and `HasKeys()` is true iff some
comma-separated token of `s` is non-empty and contains no `=`. -/
theorem ParseTagStr_has_iff (caseTable : Char → Char) (s : Str) :
    ∃ t : Tag, ParseTagStr caseTable s = some t ∧
      (t.HasOptions = true ↔ '=' ∈ s) ∧
      (t.HasKeys = true ↔ ∃ tok ∈ s.splitOn ',', tok ≠ [] ∧ '=' ∉ tok) := by
  refine ⟨_, ParseTagStr_eq caseTable s, ?_, ?_⟩
  · rw [HasOptions_allocated, mem_splitOn_iff (by decide : '=' ≠ ',') s, ne_eq,
      optionsFrom_eq_nil_iff]
    push_neg
    rfl
  · rw [HasKeys_allocated, ne_eq, keysOf_eq_nil_iff]
    push_neg
    rfl

end Tags
